import Mathlib

/-!
Verification of the decredcommunity/network-stats node statistics pipeline
(`src/nodes/nodestats.py`; `src/nodes/get_node_average.py` contains an
earlier version of the same pipeline — where a claim cites both files the
behavioural differences are modelled at the definitions, in particular its
`inverse_multidict` raises an exception that does not name the duplicate
element, see `inverse_multidict_gna`).

The Python code works with floats; the embedding models the arithmetic over
exact rationals (`ℚ`).  Python's `round(x, d)` rounds half to even, which is
modelled exactly by `round_half_even`.  Places where Python raises an
exception (`statistics.mean` on empty data, `ZeroDivisionError` on division
by zero, the duplicate `ValueError` in `inverse_multidict`, the
"fully rounded float not equal to int" exception in `concise_round`) are
modelled with `Except`.
-/

namespace NetworkStats

/-- Decidable equality of `Except` values, needed to state and check
concrete runs of the fallible pipeline functions. -/
instance {e a : Type} [DecidableEq e] [DecidableEq a] : DecidableEq (Except e a) := fun
  | .ok x, .ok y =>
    if h : x = y then .isTrue (by rw [h]) else .isFalse (by intro hc; cases hc; exact h rfl)
  | .error x, .error y =>
    if h : x = y then .isTrue (by rw [h]) else .isFalse (by intro hc; cases hc; exact h rfl)
  | .ok _, .error _ => .isFalse (by intro hc; cases hc)
  | .error _, .ok _ => .isFalse (by intro hc; cases hc)

/-! ## Rounding: `concise_round` (nodestats.py lines 136-170) -/

/-- Errors of `concise_round`: `divByZero` models the `ZeroDivisionError`
raised by `cand / f` when `f == 0` (the source has no special case for
zero); `notInt` models the
`Exception("fully rounded float not equal to int, too bad!")`. -/
inductive RoundErr where
  | divByZero
  | notInt
  deriving DecidableEq, Repr

/-- Round a rational to the nearest integer, ties to even: the exact
behaviour of Python's `round` applied to the scaled value. -/
def round_half_even (q : ℚ) : ℤ :=
  if q - ⌊q⌋ < 1/2 then ⌊q⌋
  else if 1/2 < q - ⌊q⌋ then ⌊q⌋ + 1
  else if ⌊q⌋ % 2 = 0 then ⌊q⌋ else ⌊q⌋ + 1

/-- Truncation of a rational toward zero, as Python's `int()` conversion. -/
def ratTrunc (q : ℚ) : ℤ :=
  if 0 ≤ q then ⌊q⌋ else ⌈q⌉

/-- Python's `round(f, digits)` for a nonnegative digit count: round
`f * 10 ^ digits` half to even and scale back. -/
def py_round (f : ℚ) (digits : ℕ) : ℚ :=
  (round_half_even (f * 10 ^ digits) : ℚ) / 10 ^ digits

/-- The `while digits >= 0` loop of `concise_round` (lines 151-170), with
the descending digit counts passed as a list.  Each iteration computes
`cand = round(f, digits)` and `change = abs(1 - cand / f)`; the division
raises `ZeroDivisionError` when `f == 0`.  When the digit list is exhausted
the loop falls through to the `intres = int(res)` comparison. -/
def concise_round_loop (f : ℚ) : ℚ → List ℕ → Except RoundErr ℚ
  | res, [] =>
      if ((ratTrunc res : ℤ) : ℚ) = res then .ok ((ratTrunc res : ℤ) : ℚ)
      else .error .notInt
  | res, d :: rest =>
      if f = 0 then .error .divByZero
      else if 1/10 < |1 - py_round f d / f| then .ok res
      else concise_round_loop f (py_round f d) rest

/-- `concise_round` of nodestats.py lines 136-170: `sensitivity = 0.1`,
`maxdigits = 2`, `res = f`, then the loop over digit counts 2, 1, 0. -/
def concise_round (f : ℚ) : Except RoundErr ℚ :=
  concise_round_loop f f [2, 1, 0]

/-! ## Series aggregation: `calc_node_stats` (nodestats.py lines 70-92) -/

/-- Errors of `calc_node_stats`: `emptySeries` models the
`statistics.StatisticsError` raised by `statistics.mean([])` (the spec calls
it `EmptySeries`); `zeroTotal` models the `ZeroDivisionError` raised by
`daily_mean / daily_mean_sum` when the total is zero (the spec calls it
`ZeroTotal`). -/
inductive CalcErr where
  | emptySeries
  | zeroTotal
  deriving DecidableEq, Repr

/-- One entry of `dcrfarm_data["results"][0]["series"]`: the user-agent tag
and the list of `[timestamp, count]` pairs (`series["values"]`).  The counts
are distinct-peer counts produced by the influx query, hence naturals. -/
structure Series where
  tag : String
  values : List (String × ℕ)
  deriving DecidableEq, Repr

/-- One row of the `ua_stats` list after both loops of `calc_node_stats`:
`["useragent1", dailymean1, dailymeanratio1]`, given field names. -/
structure UaStat where
  ua : String
  daily_mean : ℚ
  daily_ratio : ℚ
  deriving DecidableEq, Repr

/-- Python's `statistics.mean`: raises on empty data, otherwise the
arithmetic mean. -/
def pymean (xs : List ℚ) : Except CalcErr ℚ :=
  match xs with
  | [] => .error .emptySeries
  | _ => .ok (xs.sum / xs.length)

/-- First loop of `calc_node_stats` (lines 77-83): per series, take the
daily counts (`itemgetter(1)` over the values), compute their mean, and
accumulate the sum of means.  The first series with empty data raises. -/
def calcMeans : List Series → Except CalcErr (List (String × ℚ) × ℚ)
  | [] => .ok ([], 0)
  | s :: rest =>
      match pymean (s.values.map (fun v => (v.2 : ℚ))) with
      | .error e => .error e
      | .ok m =>
          match calcMeans rest with
          | .error e => .error e
          | .ok (stats, total) => .ok ((s.tag, m) :: stats, m + total)

/-- Second loop of `calc_node_stats` (lines 87-90): append the ratio column
`daily_mean / daily_mean_sum` to every row; the division raises
`ZeroDivisionError` when the total is zero. -/
def calcRatios (total : ℚ) : List (String × ℚ) → Except CalcErr (List UaStat)
  | [] => .ok []
  | (ua, m) :: rest =>
      if total = 0 then .error .zeroTotal
      else
        match calcRatios total rest with
        | .error e => .error e
        | .ok tail => .ok (⟨ua, m, m / total⟩ :: tail)

/-- `calc_node_stats` (lines 70-92): build `[ua, daily_mean]` rows and the
sum of means, then add the ratio column, returning `(ua_stats,
daily_mean_sum)`. -/
def calc_node_stats (data : List Series) : Except CalcErr (List UaStat × ℚ) :=
  match calcMeans data with
  | .error e => .error e
  | .ok (pairs, total) =>
      match calcRatios total pairs with
      | .error e => .error e
      | .ok stats => .ok (stats, total)

/-- The mean of a series' daily counts (defined for nonempty values; on an
empty list it degenerates to `0 / 0 = 0`, but appears in statements only
under a nonemptiness hypothesis). -/
def seriesMean (s : Series) : ℚ :=
  (s.values.map (fun v => (v.2 : ℚ))).sum / s.values.length

/-! ## Multidict inversion: `inverse_multidict` (nodestats.py lines 27-38) -/

/-- Inner loop of `inverse_multidict`: insert the elements of one group's
list into the inverse map, raising
`ValueError("duplicate multidict values are not allowed: " + str(e))`
(modelled as the offending element itself) as soon as an element is already
a key of the inverse.  Insertion keeps Python's dict insertion order. -/
def invertAdd (k : String) (inv : List (String × String)) :
    List String → Except String (List (String × String))
  | [] => .ok inv
  | e :: es =>
      if (inv.lookup e).isSome then .error e
      else invertAdd k (inv ++ [(e, k)]) es

/-- Outer loop of `inverse_multidict` over the `(key, value-list)` items of
the multidict. -/
def invertGo (inv : List (String × String)) :
    List (String × List String) → Except String (List (String × String))
  | [] => .ok inv
  | (k, v) :: rest =>
      match invertAdd k inv v with
      | .error e => .error e
      | .ok inv2 => invertGo inv2 rest

/-- `inverse_multidict` (lines 27-38): a Python dict is modelled as an
association list in insertion order; the error carries the duplicate
element named by the `ValueError`. -/
def inverse_multidict (md : List (String × List String)) :
    Except String (List (String × String)) :=
  invertGo [] md

/-- Inner loop of the earlier `inverse_multidict` copy in
get_node_average.py (lines 38-48): same iteration, but the raised
`Exception("duplicate elements in multidict values are not allowed")` does
not carry the offending element, so the error payload is empty. -/
def invertAddGna (k : String) (inv : List (String × String)) :
    List String → Except Unit (List (String × String))
  | [] => .ok inv
  | e :: es =>
      if (inv.lookup e).isSome then .error ()
      else invertAddGna k (inv ++ [(e, k)]) es

/-- Outer loop of the get_node_average.py copy of the inversion. -/
def invertGoGna (inv : List (String × String)) :
    List (String × List String) → Except Unit (List (String × String))
  | [] => .ok inv
  | (k, v) :: rest =>
      match invertAddGna k inv v with
      | .error e => .error e
      | .ok inv2 => invertGoGna inv2 rest

/-- `inverse_multidict` of get_node_average.py lines 38-48: identical to
the nodestats.py version except that its exception names no value. -/
def inverse_multidict_gna (md : List (String × List String)) :
    Except Unit (List (String × String)) :=
  invertGoGna [] md

/-- Forget the error payload: relates the two copies of the inversion. -/
def eraseErr {a : Type} : Except String a → Except Unit a
  | .error _ => .error ()
  | .ok r => .ok r

/-- All member strings of all groups of a multidict, in iteration order. -/
def allMembers : List (String × List String) → List String
  | [] => []
  | p :: rest => p.2 ++ allMembers rest

/-- The `(member, group)` pairs of a multidict, in iteration order: the
value `inverse_multidict` produces when no member is duplicated. -/
def mdPairs : List (String × List String) → List (String × String)
  | [] => []
  | p :: rest => p.2.map (fun e => (e, p.1)) ++ mdPairs rest

/-- The keys of an association list. -/
def keysOf (l : List (String × String)) : List String :=
  l.map Prod.fst

/-! ## Group aggregation: `calc_node_group_stats` (nodestats.py lines 94-134) -/

/-- Errors of `calc_node_group_stats`: a duplicate group member from
`inverse_multidict` (the spec's `DuplicateGroupMember`), or the
`ZeroDivisionError` of `gdaily_mean_sum / daily_mean_sum`. -/
inductive GroupErr where
  | dupMember (e : String)
  | zeroTotal
  deriving DecidableEq, Repr

/-- `GroupStats` namedtuple of nodestats.py lines 11-16. -/
structure GroupStats where
  name : String
  avg_nodes : ℚ
  avg_nodes_ratio : ℚ
  stats : List UaStat
  deriving DecidableEq, Repr

/-- `Stats` namedtuple of nodestats.py lines 18-21. -/
structure Stats where
  group_stats : List GroupStats
  untracked_ratio : ℚ
  deriving DecidableEq, Repr

/-- `grouped_stats.setdefault(gname, []).append(uas)`: append a row to the
named group's list, creating the group at the end on first use (Python dict
insertion order). -/
def addToGroup : List (String × List UaStat) → String → UaStat → List (String × List UaStat)
  | [], g, u => [(g, [u])]
  | (k, l) :: rest, g, u =>
      if k = g then (k, l ++ [u]) :: rest
      else (k, l) :: addToGroup rest g u

/-- The grouping loop of `calc_node_group_stats` (lines 107-114): look each
user-agent up in the inverted multidict and append its row to that group.
Python tests `if gname:`, which is false both for a missing key (`None`)
and for the empty-string group name, so both are skipped. -/
def group_uas (ua_to_group : List (String × String)) (ua_stats : List UaStat) :
    List (String × List UaStat) :=
  ua_stats.foldl
    (fun acc u =>
      match ua_to_group.lookup u.ua with
      | none => acc
      | some g => if g = "" then acc else addToGroup acc g u)
    []

/-- The per-group loop of `calc_node_group_stats` (lines 116-127): sum the
group's daily means, divide by the overall sum of means (raising
`ZeroDivisionError` when it is zero), and accumulate the tracked ratio. -/
def calcGroupStats (total : ℚ) :
    List (String × List UaStat) → Except GroupErr (List GroupStats × ℚ)
  | [] => .ok ([], 0)
  | (g, l) :: rest =>
      if total = 0 then .error .zeroTotal
      else
        match calcGroupStats total rest with
        | .error e => .error e
        | .ok (tail, tracked) =>
            .ok (⟨g, (l.map UaStat.daily_mean).sum,
                  (l.map UaStat.daily_mean).sum / total, l⟩ :: tail,
                 (l.map UaStat.daily_mean).sum / total + tracked)

/-- `sorted(group_stats, key = itemgetter(2), reverse = True)`: stable sort
by ratio, descending (Python's `sorted` with `reverse=True` keeps the
original order of equal keys, as a stable merge sort with a `≥` test
does). -/
def sortRatioDesc (l : List GroupStats) : List GroupStats :=
  l.mergeSort (fun a b => b.avg_nodes_ratio ≤ a.avg_nodes_ratio)

/-- Lines 104-134 of `calc_node_group_stats`, after the inverted lookup has
been built: group the rows, compute group sums and ratios, sort by ratio
descending, and set `untracked_ratio = 1 - tracked_ratio`. -/
def calc_groups_core (ua_to_group : List (String × String))
    (ua_stats : List UaStat) (daily_mean_sum : ℚ) : Except GroupErr Stats :=
  match calcGroupStats daily_mean_sum (group_uas ua_to_group ua_stats) with
  | .error e => .error e
  | .ok (gss, tracked) => .ok ⟨sortRatioDesc gss, 1 - tracked⟩

/-- `calc_node_group_stats` (lines 94-134).  The group definitions read
from `user-agents-tracked.json` are passed in as a parameter (the file read
is external I/O). -/
def calc_node_group_stats (tracked_ua_groups : List (String × List String))
    (ua_stats : List UaStat) (daily_mean_sum : ℚ) : Except GroupErr Stats :=
  match inverse_multidict tracked_ua_groups with
  | .error e => .error (.dupMember e)
  | .ok inv => calc_groups_core inv ua_stats daily_mean_sum

/-! ## Report formatting: `print_node_stats` (nodestats.py lines 172-199) -/

/-- Whether the character list `needle` occurs at the start of `hay`. -/
def startsWithL : List Char → List Char → Bool
  | _, [] => true
  | [], _ :: _ => false
  | a :: as, b :: bs => a = b && startsWithL as bs

/-- Whether the character list `needle` occurs contiguously anywhere in
`hay`. -/
def containsL : List Char → List Char → Bool
  | [], needle => needle.isEmpty
  | c :: t, needle => startsWithL (c :: t) needle || containsL t needle

/-- Python's substring test `needle in hay`. -/
def strContains (hay needle : String) : Bool :=
  containsL hay.data needle.data

/-- Print the integer `m`, read as a value scaled by `10 ^ k`, as a decimal
numeral with `k` digits after the point (zero-padding the fraction). -/
def decStr (m : ℤ) (k : ℕ) : String :=
  let sgn := if m < 0 then "-" else ""
  let a := m.natAbs
  let ip := a / 10 ^ k
  let fp := a % 10 ^ k
  let fs := toString fp
  sgn ++ toString ip ++ "." ++ String.mk (List.replicate (k - fs.length) '0') ++ fs

/-- Least `k` within the fuel bound such that `q * 10 ^ k` is an integer,
i.e. the number of digits of the terminating decimal expansion of `q`.
A fuel of `q.den` always suffices when the expansion terminates (the
multiplicities of 2 and 5 in the denominator are below it). -/
def decSearch (q : ℚ) : ℕ → Option ℕ
  | 0 => none
  | fuel + 1 =>
      if q.den = 1 then some 0
      else
        match decSearch (q * 10) fuel with
        | some k => some (k + 1)
        | none => none

/-- String form of a rational for `fmt_percent`, matching Python's `str` on
the values `concise_round` produces: integers print without a decimal
point, and any value with a terminating decimal expansion (every value
derived from a binary float has one) prints its shortest exact decimal
form, e.g. `0.004` for `1/250`, with no trailing zeros.  A rational whose
expansion does not terminate (impossible for float-derived values) falls
back to the `num/den` form; Python's switch to scientific notation below
`1e-4` and shortest-repr float artifacts are outside the rational model. -/
def ratStr (q : ℚ) : String :=
  if q.den = 1 then toString q.num
  else
    match decSearch (q * 10) q.den with
    | some k => decStr (q * 10 ^ (k + 1)).num (k + 1)
    | none => toString q.num ++ "/" ++ toString q.den

/-- `fmt_percent` (lines 172-173): `str(concise_round(f * 100)) + "%"`. -/
def fmt_percent (f : ℚ) : Except RoundErr String :=
  match concise_round (f * 100) with
  | .error e => .error e
  | .ok r => .ok (ratStr r ++ "%")

/-- The loop of `print_node_stats` (lines 188-195): walk the sorted group
stats once, appending `"<pct>% <name>, "` to the dcrd accumulator when the
name contains `"dcrd"` and to the dcrwallet accumulator when it contains
`"dcrwallet"`. -/
def appendEntry (acc : String) (gs : GroupStats) : Except RoundErr String :=
  match fmt_percent gs.avg_nodes_ratio with
  | .error e => .error e
  | .ok p => .ok (acc ++ p ++ " " ++ gs.name ++ ", ")

/-- One iteration body of the loop: the conditional update of one of the
two accumulator strings. -/
def stepAcc (marker : String) (acc : String) (gs : GroupStats) : Except RoundErr String :=
  if strContains gs.name marker then appendEntry acc gs else .ok acc

def print_go : List GroupStats → String → String → Except RoundErr (String × String)
  | [], dcrd_str, dcrwallet_str => .ok (dcrd_str, dcrwallet_str)
  | gs :: rest, dcrd_str, dcrwallet_str =>
      match stepAcc "dcrd" dcrd_str gs with
      | .error e => .error e
      | .ok d =>
          match stepAcc "dcrwallet" dcrwallet_str gs with
          | .error e => .error e
          | .ok w => print_go rest d w

/-- `print_node_stats` (lines 182-199), as the string it prints.  The month
name produced by `start_date.strftime("%B")` is passed as a parameter (date
formatting is external to the core). -/
def print_node_stats (stats : Stats) (monthName : String) : Except RoundErr String :=
  match print_go stats.group_stats "" "" with
  | .error e => .error e
  | .ok (d, w) =>
      match fmt_percent stats.untracked_ratio with
      | .error e => .error e
      | .ok u => .ok ("Average version distribution for " ++ monthName ++ ": "
                      ++ d ++ w ++ u ++ " others.")

/-- One rendered group entry, `"<pct>% <name>, "`. -/
def fmt_entry (gs : GroupStats) : Except RoundErr String :=
  match fmt_percent gs.avg_nodes_ratio with
  | .error e => .error e
  | .ok p => .ok (p ++ " " ++ gs.name ++ ", ")

/-- Render a list of group entries in order. -/
def fmt_entries : List GroupStats → Except RoundErr (List String)
  | [] => .ok []
  | gs :: rest =>
      match fmt_entry gs with
      | .error e => .error e
      | .ok p =>
          match fmt_entries rest with
          | .error e => .error e
          | .ok tail => .ok (p :: tail)

/-- The report line as the specification describes it (spec section 4.5):
header, then every group whose name contains `"dcrd"` in the overall sorted
order, then every group whose name contains `"dcrwallet"`, then the
untracked percentage and `" others."`.  This is the claim-side rendering
that `print_node_stats` is proved to refine. -/
def print_node_stats_spec (stats : Stats) (monthName : String) : Except RoundErr String :=
  match fmt_entries (stats.group_stats.filter (fun gs => strContains gs.name "dcrd")) with
  | .error e => .error e
  | .ok dparts =>
      match fmt_entries (stats.group_stats.filter (fun gs => strContains gs.name "dcrwallet")) with
      | .error e => .error e
      | .ok wparts =>
          match fmt_percent stats.untracked_ratio with
          | .error e => .error e
          | .ok u => .ok ("Average version distribution for " ++ monthName ++ ": "
                          ++ String.join dparts ++ String.join wparts ++ u ++ " others.")

/-! ## Rounding lemmas -/

theorem round_half_even_intCast (n : ℤ) : round_half_even (n : ℚ) = n := by
  norm_num [round_half_even, Int.floor_intCast]

theorem ratTrunc_intCast (n : ℤ) : ratTrunc (n : ℚ) = n := by
  unfold ratTrunc
  split <;> simp

theorem abs_round_half_even_sub (q : ℚ) : |(round_half_even q : ℚ) - q| ≤ 1/2 := by
  have h1 : (⌊q⌋ : ℚ) ≤ q := Int.floor_le q
  have h2 : q < ⌊q⌋ + 1 := Int.lt_floor_add_one q
  unfold round_half_even
  split_ifs with hlt hgt hev
  · rw [abs_sub_comm, abs_of_nonneg (by linarith)]
    linarith
  · push_cast
    rw [abs_of_nonneg (by linarith)]
    linarith
  · rw [abs_sub_comm, abs_of_nonneg (by linarith)]
    linarith
  · push_cast
    rw [abs_of_nonneg (by linarith)]
    linarith

theorem py_round_sub_abs (f : ℚ) (d : ℕ) : |py_round f d - f| ≤ 1 / (2 * 10 ^ d) := by
  have hp : (0 : ℚ) < 10 ^ d := by positivity
  have heq : py_round f d - f = ((round_half_even (f * 10 ^ d) : ℚ) - f * 10 ^ d) / 10 ^ d := by
    unfold py_round
    field_simp
    ring
  rw [heq, abs_div, abs_of_pos hp]
  have h2 : (1 : ℚ) / (2 * 10 ^ d) = (1/2) / 10 ^ d := by rw [div_div]
  rw [h2]
  exact div_le_div_of_nonneg_right (abs_round_half_even_sub (f * 10 ^ d)) hp.le

theorem py_round_eq_self (f : ℚ) (d : ℕ) (m : ℤ) (h : f * 10 ^ d = (m : ℚ)) :
    py_round f d = f := by
  have hp : (10 : ℚ) ^ d ≠ 0 := by positivity
  unfold py_round
  rw [h, round_half_even_intCast, ← h, mul_div_cancel_right₀ f hp]

theorem py_round_zero_digits (f : ℚ) : py_round f 0 = ((round_half_even f : ℤ) : ℚ) := by
  simp [py_round]

/-- C5 loop invariant: once the running result is within 10% of the input,
every value the loop can return is within 10% of the input. -/
theorem concise_round_loop_tol (f : ℚ) (hf : f ≠ 0) :
    ∀ (ds : List ℕ) (res r : ℚ), |1 - res / f| ≤ 1/10 →
      concise_round_loop f res ds = .ok r → |1 - r / f| ≤ 1/10 := by
  intro ds
  induction ds with
  | nil =>
      intro res r hres h
      unfold concise_round_loop at h
      split at h
      · rename_i heq
        cases h
        rw [heq]
        exact hres
      · cases h
  | cons d rest ih =>
      intro res r hres h
      unfold concise_round_loop at h
      rw [if_neg hf] at h
      split at h
      · cases h
        exact hres
      · rename_i hc
        exact ih (py_round f d) r (not_lt.mp hc) h

/-- Integral inputs other than zero are fixed points of `concise_round`. -/
theorem concise_round_intCast (n : ℤ) (hn : n ≠ 0) :
    concise_round (n : ℚ) = .ok (n : ℚ) := by
  have hf : (n : ℚ) ≠ 0 := Int.cast_ne_zero.mpr hn
  have hr : ∀ d : ℕ, py_round (n : ℚ) d = (n : ℚ) := fun d =>
    py_round_eq_self _ d (n * 10 ^ d) (by push_cast; ring)
  have hch : |1 - (n : ℚ) / (n : ℚ)| = 0 := by rw [div_self hf]; simp
  simp only [concise_round, concise_round_loop, if_neg hf, hr, hch]
  norm_num [ratTrunc_intCast]

/-- For inputs of absolute value at least 5, every rounding candidate stays
within the 10% tolerance of the input. -/
theorem py_round_change_le (f : ℚ) (h5 : 5 ≤ |f|) (d : ℕ) :
    |1 - py_round f d / f| ≤ 1/10 := by
  have hf : f ≠ 0 := by
    intro h
    rw [h] at h5
    simp at h5
    linarith
  have h1 : 1 - py_round f d / f = (f - py_round f d) / f := by field_simp
  have h2 : |f - py_round f d| ≤ 1/2 := by
    rw [abs_sub_comm]
    calc |py_round f d - f| ≤ 1 / (2 * 10 ^ d) := py_round_sub_abs f d
      _ ≤ 1/2 := by
          apply one_div_le_one_div_of_le (by norm_num)
          have : (1 : ℚ) ≤ 10 ^ d := one_le_pow₀ (by norm_num)
          linarith
  rw [h1, abs_div]
  calc |f - py_round f d| / |f| ≤ (1/2) / 5 := div_le_div₀ (by norm_num) h2 (by norm_num) h5
    _ = 1/10 := by norm_num

/-! ## Checks of the rounding table from nodestats_test.py -/

theorem concise_round_tbl_48_01 : concise_round (4801/100) = .ok 48 := by
  norm_num [concise_round, concise_round_loop, py_round, round_half_even, ratTrunc,
    abs_of_nonneg, abs_of_nonpos, abs_sub_comm]

theorem concise_round_tbl_10_5 : concise_round (105/10) = .ok 10 := by
  norm_num [concise_round, concise_round_loop, py_round, round_half_even, ratTrunc,
    abs_of_nonneg, abs_of_nonpos, abs_sub_comm]

theorem concise_round_tbl_0_46 : concise_round (46/100) = .ok (5/10) := by
  norm_num [concise_round, concise_round_loop, py_round, round_half_even, ratTrunc,
    abs_of_nonneg, abs_of_nonpos, abs_sub_comm]

theorem concise_round_tbl_0_36 : concise_round (36/100) = .ok (36/100) := by
  norm_num [concise_round, concise_round_loop, py_round, round_half_even, ratTrunc,
    abs_of_nonneg, abs_of_nonpos, abs_sub_comm]

/-! ## Claim C4 -/

/-- C4: the claim states that `concise_round(0)` returns `0` thanks to a
special case for `f == 0`.  The code has no such special case: at input `0`
the tolerance check computes `cand / f` with `f = 0` and raises
`ZeroDivisionError`, so the claim describes the intended behaviour and the
code fails on the degenerate input (a reachable one: `fmt_percent` is
applied to `untracked_ratio`, which is exactly `0` whenever every user-agent
is tracked). -/
theorem c4_concise_round_zero_raises : concise_round 0 = .error .divByZero := by
  norm_num [concise_round, concise_round_loop]

/-! ## Claim C5 -/

/-- C5: for every nonzero input `f`, any value `concise_round` returns
satisfies `abs(1 - res/f) <= 0.10`, i.e. the result is within 10% relative
tolerance of the input. -/
theorem c5_concise_round_tolerance (f : ℚ) (hf : f ≠ 0) (r : ℚ)
    (h : concise_round f = .ok r) : |1 - r / f| ≤ 1/10 :=
  concise_round_loop_tol f hf [2, 1, 0] f r (by rw [div_self hf]; norm_num) h

/-- Witness for C5 at the concrete input 2. -/
theorem c5_witness :
    (2 : ℚ) ≠ 0 ∧ concise_round (2 : ℚ) = .ok 2 ∧ |1 - (2 : ℚ) / 2| ≤ 1/10 :=
  ⟨by norm_num,
   by norm_num [concise_round, concise_round_loop, py_round, round_half_even, ratTrunc,
     abs_of_nonneg, abs_of_nonpos, abs_sub_comm],
   c5_concise_round_tolerance 2 (by norm_num) 2
     (by norm_num [concise_round, concise_round_loop, py_round, round_half_even, ratTrunc,
       abs_of_nonneg, abs_of_nonpos, abs_sub_comm])⟩

/-! ## Claim C9 -/

theorem concise_round_loop_zero_ne (f res : ℚ) :
    concise_round_loop f res [0] ≠ .error .notInt := by
  by_cases hf : f = 0
  · simp [concise_round_loop, hf]
  · simp only [concise_round_loop, if_neg hf]
    split
    · simp
    · rw [py_round_zero_digits]
      simp [concise_round_loop, ratTrunc_intCast]

theorem concise_round_loop_cons_ne (f : ℚ) (d : ℕ) (rest : List ℕ)
    (ih : ∀ q, concise_round_loop f q rest ≠ .error .notInt) (res : ℚ) :
    concise_round_loop f res (d :: rest) ≠ .error .notInt := by
  by_cases hf : f = 0
  · simp [concise_round_loop, hf]
  · simp only [concise_round_loop, if_neg hf]
    split
    · simp
    · exact ih _

/-- C9: for every input, the loop's final candidate `round(f, 0)` is an
integral-valued rational, so the `int(res) == res` comparison at the end of
the loop always succeeds and the
`Exception("fully rounded float not equal to int")` branch is unreachable:
`concise_round` never returns that error. -/
theorem c9_notInt_unreachable (f : ℚ) : concise_round f ≠ .error .notInt := by
  unfold concise_round
  exact concise_round_loop_cons_ne f 2 [1, 0]
    (concise_round_loop_cons_ne f 1 [0] (concise_round_loop_zero_ne f)) f

/-- Witness for C9 at the concrete input 5. -/
theorem c9_witness : concise_round (5 : ℚ) ≠ .error .notInt :=
  c9_notInt_unreachable 5

/-! ## Claim C6 -/

/-- C6 counterexample: `concise_round` is not idempotent.  At the input
3.34 it returns 3.3, but at 3.3 it returns 3 (the 0-digit candidate 3 is
only 9.09% away from 3.3, inside the tolerance, while it was 10.18% away
from 3.34), so `concise_round (concise_round 3.34) ≠ concise_round 3.34`. -/
theorem c6_counterexample :
    concise_round (334/100) = .ok (33/10) ∧ concise_round (33/10) = .ok 3
      ∧ concise_round (33/10) ≠ .ok ((33 : ℚ)/10) := by
  refine ⟨?_, ?_, ?_⟩ <;>
    norm_num [concise_round, concise_round_loop, py_round, round_half_even, ratTrunc,
      abs_of_nonneg, abs_of_nonpos, abs_sub_comm]

/-- One accepted iteration of the rounding loop: when the candidate is
within tolerance, the loop continues with the candidate as running
result. -/
theorem concise_round_loop_step (f : ℚ) (hf : f ≠ 0) (res : ℚ) (d : ℕ) (rest : List ℕ)
    (h : ¬ 1/10 < |1 - py_round f d / f|) :
    concise_round_loop f res (d :: rest) = concise_round_loop f (py_round f d) rest := by
  simp only [concise_round_loop]
  rw [if_neg hf, if_neg h]

/-- C6 (amended): `concise_round` is idempotent on every input of absolute
value at least 5 — there it returns `round(f, 0)`, a nonzero integer, which
is a fixed point — but not on all inputs (see `c6_counterexample`). -/
theorem c6_idempotent_of_five_le (f : ℚ) (h5 : 5 ≤ |f|) :
    ∃ r, concise_round f = .ok r ∧ concise_round r = .ok r := by
  have hf : f ≠ 0 := by
    intro h
    rw [h] at h5
    norm_num at h5
  have h2 := not_lt.mpr (py_round_change_le f h5 2)
  have h1 := not_lt.mpr (py_round_change_le f h5 1)
  have h0 := not_lt.mpr (py_round_change_le f h5 0)
  have hrne : ((round_half_even f : ℤ) : ℚ) ≠ 0 := by
    intro hzero
    have hsub := abs_round_half_even_sub f
    rw [hzero] at hsub
    rw [zero_sub, abs_neg] at hsub
    linarith
  refine ⟨((round_half_even f : ℤ) : ℚ), ?_, ?_⟩
  · rw [show concise_round f = concise_round_loop f f [2, 1, 0] from rfl,
      concise_round_loop_step f hf f 2 [1, 0] h2,
      concise_round_loop_step f hf _ 1 [0] h1,
      concise_round_loop_step f hf _ 0 [] h0,
      py_round_zero_digits]
    simp [concise_round_loop, ratTrunc_intCast]
  · exact concise_round_intCast (round_half_even f) (fun hn => hrne (by rw [hn]; simp))

/-- Witness for C6 (amended) at the concrete input 7. -/
theorem c6_witness :
    5 ≤ |(7 : ℚ)| ∧ ∃ r, concise_round (7 : ℚ) = .ok r ∧ concise_round r = .ok r :=
  ⟨by norm_num, c6_idempotent_of_five_le 7 (by norm_num)⟩

/-! ## Claim C1: correctness of the multidict inversion -/

theorem keysOf_append (a b : List (String × String)) :
    keysOf (a ++ b) = keysOf a ++ keysOf b := by
  simp [keysOf]

theorem keysOf_map_pair (v : List String) (k : String) :
    keysOf (v.map (fun e => (e, k))) = v := by
  induction v with
  | nil => rfl
  | cons e t ih =>
      show (e, k).1 :: keysOf (t.map (fun x => (x, k))) = e :: t
      rw [ih]

theorem lookup_isSome_iff (l : List (String × String)) (e : String) :
    (l.lookup e).isSome = true ↔ e ∈ keysOf l := by
  induction l with
  | nil => simp [keysOf]
  | cons p t ih =>
      obtain ⟨a, b⟩ := p
      have hk : keysOf ((a, b) :: t) = a :: keysOf t := rfl
      by_cases he : e = a
      · subst he
        simp [List.lookup, hk]
      · have hb : (e == a) = false := by simp [beq_eq_false_iff_ne, he]
        simp only [List.lookup, hb, hk]
        simp [List.mem_cons, he, ih]

theorem mdPairs_keys (md : List (String × List String)) :
    keysOf (mdPairs md) = allMembers md := by
  induction md with
  | nil => rfl
  | cons p rest ih =>
      show keysOf (p.2.map (fun e => (e, p.1)) ++ mdPairs rest) = p.2 ++ allMembers rest
      rw [keysOf_append, keysOf_map_pair, ih]

theorem mdPairs_mem (md : List (String × List String)) (p : String × List String)
    (hp : p ∈ md) (e : String) (he : e ∈ p.2) : (e, p.1) ∈ mdPairs md := by
  induction md with
  | nil => cases hp
  | cons q rest ih =>
      rcases List.mem_cons.mp hp with h | h
      · subst h
        exact List.mem_append_left _ (List.mem_map.mpr ⟨e, he, rfl⟩)
      · exact List.mem_append_right _ (ih h)

theorem lookup_eq_of_mem_of_nodup (l : List (String × String)) (e k : String)
    (hnd : (keysOf l).Nodup) (hmem : (e, k) ∈ l) : l.lookup e = some k := by
  induction l with
  | nil => cases hmem
  | cons p t ih =>
      obtain ⟨a, b⟩ := p
      have hnd2 : (a :: keysOf t).Nodup := hnd
      obtain ⟨hna, hndt⟩ := List.nodup_cons.mp hnd2
      by_cases he : e = a
      · subst he
        rcases List.mem_cons.mp hmem with h | h
        · cases h
          simp [List.lookup]
        · exact absurd (List.mem_map.mpr ⟨(e, k), h, rfl⟩) hna
      · rcases List.mem_cons.mp hmem with h | h
        · cases h
          exact absurd rfl he
        · simp only [List.lookup]
          rw [show (e == a) = false by simp [beq_eq_false_iff_ne, he]]
          exact ih hndt h

theorem invertAdd_ok_eq (k : String) (es : List String) :
    ∀ (inv r : List (String × String)), invertAdd k inv es = .ok r →
      r = inv ++ es.map (fun e => (e, k)) := by
  induction es with
  | nil =>
      intro inv r h
      simp [invertAdd] at h
      rw [← h]
      simp
  | cons e es ih =>
      intro inv r h
      simp only [invertAdd] at h
      split at h
      · simp at h
      · have h2 := ih (inv ++ [(e, k)]) r h
        rw [h2]
        simp

theorem invertAdd_ok_iff (k : String) (es : List String) :
    ∀ inv : List (String × String),
      (∃ r, invertAdd k inv es = .ok r) ↔ es.Nodup ∧ ∀ x ∈ es, x ∉ keysOf inv := by
  induction es with
  | nil =>
      intro inv
      simp [invertAdd]
  | cons e es ih =>
      intro inv
      by_cases hmem : e ∈ keysOf inv
      · have hs : (inv.lookup e).isSome = true := (lookup_isSome_iff inv e).mpr hmem
        constructor
        · rintro ⟨r, hr⟩
          simp [invertAdd, hs] at hr
        · rintro ⟨hnd, hall⟩
          exact absurd hmem (hall e (List.mem_cons_self e es))
      · have hs : ¬(inv.lookup e).isSome = true :=
          fun h => hmem ((lookup_isSome_iff inv e).mp h)
        constructor
        · rintro ⟨r, hr⟩
          simp only [invertAdd, hs, if_false] at hr
          obtain ⟨hnd, hall⟩ := (ih (inv ++ [(e, k)])).mp ⟨r, hr⟩
          have hkeys : ∀ x ∈ es, x ∉ keysOf inv ∧ x ≠ e := by
            intro x hx
            have h3 := hall x hx
            rw [keysOf_append] at h3
            simpa [keysOf] using h3
          refine ⟨List.nodup_cons.mpr ⟨fun hin => (hkeys e hin).2 rfl, hnd⟩, ?_⟩
          intro x hx
          rcases List.mem_cons.mp hx with h | h
          · subst h
            exact hmem
          · exact (hkeys x h).1
        · rintro ⟨hnd, hall⟩
          obtain ⟨he, hnd2⟩ := List.nodup_cons.mp hnd
          simp only [invertAdd, hs, if_false]
          apply (ih (inv ++ [(e, k)])).mpr
          refine ⟨hnd2, fun x hx => ?_⟩
          rw [keysOf_append]
          simp only [keysOf, List.map_cons, List.map_nil, List.mem_append,
            List.mem_singleton, not_or]
          exact ⟨hall x (List.mem_cons_of_mem e hx), fun hxe => he (hxe ▸ hx)⟩

theorem invertAdd_error_spec (k : String) (es : List String) :
    ∀ (inv : List (String × String)) (e : String), invertAdd k inv es = .error e →
      (e ∈ keysOf inv ∧ e ∈ es) ∨ 2 ≤ es.count e := by
  induction es with
  | nil =>
      intro inv e h
      simp [invertAdd] at h
  | cons e0 es ih =>
      intro inv e h
      simp only [invertAdd] at h
      split at h
      · rename_i hs
        have he : e0 = e := by simpa using h
        subst he
        exact .inl ⟨(lookup_isSome_iff inv e0).mp hs, List.mem_cons_self e0 es⟩
      · rcases ih (inv ++ [(e0, k)]) e h with ⟨hk, hm⟩ | hc
        · rw [keysOf_append] at hk
          rcases List.mem_append.mp hk with hk1 | hk2
          · exact .inl ⟨hk1, List.mem_cons_of_mem e0 hm⟩
          · have he : e = e0 := by simpa [keysOf] using hk2
            subst he
            right
            have h1 : es.count e ≠ 0 := fun h0 => (List.count_eq_zero.mp h0) hm
            rw [List.count_cons_self]
            omega
        · right
          have hle : es.count e ≤ (e0 :: es).count e := by
            rw [List.count_cons]
            split <;> omega
          omega

theorem invertGo_ok_eq (md : List (String × List String)) :
    ∀ (inv r : List (String × String)), invertGo inv md = .ok r →
      r = inv ++ mdPairs md := by
  induction md with
  | nil =>
      intro inv r h
      simp [invertGo] at h
      rw [← h]
      simp [mdPairs]
  | cons p rest ih =>
      obtain ⟨k, v⟩ := p
      intro inv r h
      simp only [invertGo] at h
      cases hadd : invertAdd k inv v with
      | error e =>
          rw [hadd] at h
          simp at h
      | ok inv2 =>
          rw [hadd] at h
          have h2 : invertGo inv2 rest = .ok r := h
          have hv := invertAdd_ok_eq k v inv inv2 hadd
          rw [ih inv2 r h2, hv]
          simp [mdPairs]

theorem invertGo_ok_iff (md : List (String × List String)) :
    ∀ inv : List (String × String),
      (∃ r, invertGo inv md = .ok r) ↔
        (allMembers md).Nodup ∧ ∀ x ∈ allMembers md, x ∉ keysOf inv := by
  induction md with
  | nil =>
      intro inv
      simp [invertGo, allMembers]
  | cons p rest ih =>
      obtain ⟨k, v⟩ := p
      intro inv
      constructor
      · rintro ⟨r, hr⟩
        simp only [invertGo] at hr
        cases hadd : invertAdd k inv v with
        | error e =>
            rw [hadd] at hr
            simp at hr
        | ok inv2 =>
            rw [hadd] at hr
            have hr2 : invertGo inv2 rest = .ok r := hr
            have hv := invertAdd_ok_eq k v inv inv2 hadd
            obtain ⟨hnd1, hall1⟩ := (invertAdd_ok_iff k v inv).mp ⟨inv2, hadd⟩
            obtain ⟨hnd2, hall2⟩ := (ih inv2).mp ⟨r, hr2⟩
            subst hv
            constructor
            · show (v ++ allMembers rest).Nodup
              refine List.nodup_append.mpr ⟨hnd1, hnd2, ?_⟩
              intro x hxv hxrest
              have h3 := hall2 x hxrest
              rw [keysOf_append, keysOf_map_pair] at h3
              exact h3 (List.mem_append_right _ hxv)
            · intro x hx
              rcases List.mem_append.mp hx with h1 | h2
              · exact hall1 x h1
              · have h3 := hall2 x h2
                rw [keysOf_append] at h3
                exact fun hm => h3 (List.mem_append_left _ hm)
      · rintro ⟨hnd, hall⟩
        have hnd' : (v ++ allMembers rest).Nodup := hnd
        obtain ⟨hnv, hnrest, hdisj⟩ := List.nodup_append.mp hnd'
        obtain ⟨inv2, hadd⟩ := (invertAdd_ok_iff k v inv).mpr
          ⟨hnv, fun x hx => hall x (List.mem_append_left _ hx)⟩
        have hv := invertAdd_ok_eq k v inv inv2 hadd
        have hrest : ∃ r, invertGo inv2 rest = .ok r := by
          apply (ih inv2).mpr
          subst hv
          refine ⟨hnrest, fun x hx => ?_⟩
          rw [keysOf_append, keysOf_map_pair]
          intro hmem
          rcases List.mem_append.mp hmem with h1 | h2
          · exact hall x (List.mem_append_right _ hx) h1
          · exact hdisj h2 hx
        obtain ⟨r, hr⟩ := hrest
        refine ⟨r, ?_⟩
        simp only [invertGo]
        rw [hadd]
        exact hr

theorem invertGo_error_spec (md : List (String × List String)) :
    ∀ (inv : List (String × String)) (e : String), invertGo inv md = .error e →
      (e ∈ keysOf inv ∧ e ∈ allMembers md) ∨ 2 ≤ (allMembers md).count e := by
  induction md with
  | nil =>
      intro inv e h
      simp [invertGo] at h
  | cons p rest ih =>
      obtain ⟨k, v⟩ := p
      intro inv e h
      simp only [invertGo] at h
      cases hadd : invertAdd k inv v with
      | error e2 =>
          rw [hadd] at h
          have he : e2 = e := by simpa using h
          subst he
          rcases invertAdd_error_spec k v inv e2 hadd with ⟨hk, hm⟩ | hc
          · exact .inl ⟨hk, List.mem_append_left _ hm⟩
          · right
            show 2 ≤ (v ++ allMembers rest).count e2
            rw [List.count_append]
            omega
      | ok inv2 =>
          rw [hadd] at h
          have h2 : invertGo inv2 rest = .error e := h
          have hv := invertAdd_ok_eq k v inv inv2 hadd
          rcases ih inv2 e h2 with ⟨hk, hm⟩ | hc
          · subst hv
            rw [keysOf_append, keysOf_map_pair] at hk
            rcases List.mem_append.mp hk with h1 | h2'
            · exact .inl ⟨h1, List.mem_append_right _ hm⟩
            · right
              show 2 ≤ (v ++ allMembers rest).count e
              rw [List.count_append]
              have hc1 : v.count e ≠ 0 := fun h0 => (List.count_eq_zero.mp h0) h2'
              have hc2 : (allMembers rest).count e ≠ 0 :=
                fun h0 => (List.count_eq_zero.mp h0) hm
              omega
          · right
            show 2 ≤ (v ++ allMembers rest).count e
            rw [List.count_append]
            omega

/-- Full characterisation of the nodestats.py `inverse_multidict`: it fails
exactly when some member string occurs twice across (or within) the group
lists; a failure names a member that occurs at least twice; and on success
the produced lookup maps every member of every group back to that group's
name (every `(member, group)` pair round-trips). -/
theorem inverse_multidict_spec (md : List (String × List String)) :
    ((∃ inv, inverse_multidict md = .ok inv) ↔ (allMembers md).Nodup)
    ∧ (∀ e, inverse_multidict md = .error e → 2 ≤ (allMembers md).count e)
    ∧ (∀ inv, inverse_multidict md = .ok inv →
        ∀ p ∈ md, ∀ e ∈ p.2, inv.lookup e = some p.1) := by
  refine ⟨?_, ?_, ?_⟩
  · rw [show inverse_multidict md = invertGo [] md from rfl, invertGo_ok_iff md []]
    simp [keysOf]
  · intro e h
    rcases invertGo_error_spec md [] e h with ⟨hk, _⟩ | hc
    · simp [keysOf] at hk
    · exact hc
  · intro inv h p hp e he
    have hr := invertGo_ok_eq md [] inv h
    rw [List.nil_append] at hr
    subst hr
    have hnd : (allMembers md).Nodup := by
      have h2 := (invertGo_ok_iff md []).mp ⟨mdPairs md, h⟩
      exact h2.1
    apply lookup_eq_of_mem_of_nodup
    · rw [mdPairs_keys]
      exact hnd
    · exact mdPairs_mem md p hp e he

theorem invertAddGna_eq (k : String) (es : List String) :
    ∀ inv : List (String × String),
      invertAddGna k inv es = eraseErr (invertAdd k inv es) := by
  induction es with
  | nil => intro inv; rfl
  | cons e es ih =>
      intro inv
      simp only [invertAddGna, invertAdd]
      split
      · rfl
      · exact ih (inv ++ [(e, k)])

theorem invertGoGna_eq (md : List (String × List String)) :
    ∀ inv : List (String × String),
      invertGoGna inv md = eraseErr (invertGo inv md) := by
  induction md with
  | nil => intro inv; rfl
  | cons p rest ih =>
      obtain ⟨k, v⟩ := p
      intro inv
      simp only [invertGoGna, invertGo, invertAddGna_eq k v inv]
      cases invertAdd k inv v with
      | error e => rfl
      | ok inv2 => exact ih inv2

/-- The two copies of the inversion agree up to the error payload. -/
theorem inverse_multidict_gna_eq (md : List (String × List String)) :
    inverse_multidict_gna md = eraseErr (inverse_multidict md) :=
  invertGoGna_eq md []

theorem eraseErr_ok_iff {a : Type} (x : Except String a) (r : a) :
    eraseErr x = .ok r ↔ x = .ok r := by
  cases x <;> simp [eraseErr]

/-- C1 counterexample: the claim says "the failure names the offending
member string" for both cited copies of `inverse_multidict`, but on the
duplicated definition `{"g": ["a"], "h": ["a"]}` only the nodestats.py copy
reports the member "a"; the get_node_average.py copy raises
`Exception("duplicate elements in multidict values are not allowed")`,
whose payload carries no member string at all. -/
theorem c1_counterexample :
    inverse_multidict [("g", ["a"]), ("h", ["a"])] = .error "a"
    ∧ inverse_multidict_gna [("g", ["a"]), ("h", ["a"])] = .error () := by
  constructor <;> rfl

/-- C1 (amended): both copies of the inversion fail exactly when some
member string occurs in two groups (or twice in one list), and on success
both produce the lookup through which every `(member, group)` pair
round-trips; but only the nodestats.py copy's failure names the offending
member (a string occurring at least twice) — the get_node_average.py copy's
exception carries no value (see `c1_counterexample`). -/
theorem c1_inverse_multidict_amended (md : List (String × List String)) :
    ((∃ inv, inverse_multidict md = .ok inv) ↔ (allMembers md).Nodup)
    ∧ (∀ e, inverse_multidict md = .error e → 2 ≤ (allMembers md).count e)
    ∧ (∀ inv, inverse_multidict md = .ok inv →
        ∀ p ∈ md, ∀ e ∈ p.2, inv.lookup e = some p.1)
    ∧ ((∃ inv, inverse_multidict_gna md = .ok inv) ↔ (allMembers md).Nodup)
    ∧ (∀ inv, inverse_multidict_gna md = .ok inv →
        ∀ p ∈ md, ∀ e ∈ p.2, inv.lookup e = some p.1) := by
  obtain ⟨h1, h2, h3⟩ := inverse_multidict_spec md
  have hg : ∀ inv, inverse_multidict_gna md = .ok inv ↔ inverse_multidict md = .ok inv := by
    intro inv
    rw [inverse_multidict_gna_eq]
    exact eraseErr_ok_iff (inverse_multidict md) inv
  refine ⟨h1, h2, h3, ?_, ?_⟩
  · rw [← h1]
    exact exists_congr hg
  · intro inv h
    exact h3 inv ((hg inv).mp h)

/-- Witness for C1 (amended): on the two-member group definition
`{"g": ["a", "b"]}` both inversions succeed and the lookup sends the member
"a" back to the group name "g". -/
theorem c1_witness :
    ([("a", "g"), ("b", "g")] : List (String × String)).lookup "a" = some "g"
    ∧ inverse_multidict_gna [("g", ["a", "b"])] = .ok [("a", "g"), ("b", "g")] :=
  ⟨(c1_inverse_multidict_amended [("g", ["a", "b"])]).2.2.1 [("a", "g"), ("b", "g")] (by rfl)
    ("g", ["a", "b"]) (by simp) "a" (by simp),
   by rfl⟩

/-! ## Series aggregator lemmas (claims C2, C3, C7) -/

theorem calcMeans_eq (data : List Series) (h : ∀ s ∈ data, s.values ≠ []) :
    calcMeans data = .ok (data.map (fun s => (s.tag, seriesMean s)),
                          (data.map seriesMean).sum) := by
  induction data with
  | nil => simp [calcMeans]
  | cons s rest ih =>
      have hs : s.values ≠ [] := h s (List.mem_cons_self s rest)
      have hrest := ih (fun x hx => h x (List.mem_cons_of_mem s hx))
      have hm : pymean (s.values.map (fun v => (v.2 : ℚ))) = .ok (seriesMean s) := by
        cases hv : s.values with
        | nil => exact absurd hv hs
        | cons a t => simp [pymean, seriesMean, hv]
      simp only [calcMeans]
      rw [hm, hrest]
      simp

theorem seriesMean_nonneg (s : Series) : 0 ≤ seriesMean s := by
  unfold seriesMean
  apply div_nonneg
  · apply List.sum_nonneg
    intro x hx
    obtain ⟨v, hv, rfl⟩ := List.mem_map.mp hx
    positivity
  · positivity

theorem seriesMean_pos (s : Series) (hne : s.values ≠ []) (v : String × ℕ)
    (hv : v ∈ s.values) (hc : 0 < v.2) : 0 < seriesMean s := by
  unfold seriesMean
  apply div_pos
  · have h1 : ((v.2 : ℚ)) ≤ (s.values.map (fun w => (w.2 : ℚ))).sum :=
      List.single_le_sum
        (fun x hx => by obtain ⟨w, hw, rfl⟩ := List.mem_map.mp hx; positivity) _
        (List.mem_map.mpr ⟨v, hv, rfl⟩)
    have h2 : (0 : ℚ) < v.2 := by exact_mod_cast hc
    linarith
  · have hlen : s.values.length ≠ 0 := fun h0 => hne (List.length_eq_zero.mp h0)
    exact_mod_cast Nat.pos_of_ne_zero hlen

theorem calcRatios_ok (total : ℚ) (hne : total ≠ 0) (pairs : List (String × ℚ)) :
    calcRatios total pairs = .ok (pairs.map (fun p => ⟨p.1, p.2, p.2 / total⟩)) := by
  induction pairs with
  | nil => simp [calcRatios]
  | cons p rest ih =>
      obtain ⟨ua, m⟩ := p
      simp only [calcRatios, if_neg hne]
      rw [ih]
      simp

theorem list_sum_div (l : List ℚ) (c : ℚ) : (l.map (fun x => x / c)).sum = l.sum / c := by
  induction l with
  | nil => simp
  | cons x t ih => simp [ih, add_div]

theorem ratio_col_map (data : List Series) (c : ℚ) :
    ((data.map (fun s => (s.tag, seriesMean s))).map
        (fun p => (⟨p.1, p.2, p.2 / c⟩ : UaStat))).map UaStat.daily_ratio
      = (data.map seriesMean).map (fun m => m / c) := by
  induction data with
  | nil => rfl
  | cons s rest ih =>
      simp only [List.map_cons]
      rw [ih]

/-! ## Claim C3 -/

/-- C3 counterexample: the claim says an input with no series at all fails
with `ZeroTotal`, but `calc_node_stats` of an empty series list returns
successfully: both loops run zero iterations, no division is performed, and
the result is an empty row list with total 0. -/
theorem c3_counterexample : calc_node_stats ([] : List Series) = .ok ([], 0) := rfl

/-- C3 (amended): on every input with at least one series, where every
series has nonempty values and the total mean sum is zero (with natural
counts: every observed count is zero), `calc_node_stats` fails with the
`ZeroTotal` division error; only the no-series input escapes with an empty
result (see `c3_counterexample`). -/
theorem c3_zero_total_amended (data : List Series) (hne : data ≠ [])
    (hv : ∀ s ∈ data, s.values ≠ []) (hz : ∀ s ∈ data, ∀ v ∈ s.values, v.2 = 0) :
    calc_node_stats data = .error .zeroTotal := by
  have hm := calcMeans_eq data hv
  have hzero : ∀ s ∈ data, seriesMean s = 0 := by
    intro s hs
    unfold seriesMean
    have hall : ∀ x ∈ s.values.map (fun v => (v.2 : ℚ)), x = 0 := by
      intro x hx
      obtain ⟨v, hvm, rfl⟩ := List.mem_map.mp hx
      have := hz s hs v hvm
      exact_mod_cast this
    rw [List.sum_eq_zero hall]
    simp
  unfold calc_node_stats
  rw [hm]
  cases data with
  | nil => exact absurd rfl hne
  | cons s rest =>
      have htot : ((s :: rest).map seriesMean).sum = 0 :=
        List.sum_eq_zero (by
          intro x hx
          obtain ⟨t, ht, rfl⟩ := List.mem_map.mp hx
          exact hzero t ht)
      rw [htot]
      simp [calcRatios]

/-- Witness for C3 (amended) on the concrete single-series all-zero
input. -/
theorem c3_witness :
    ([⟨"a", [("t", 0)]⟩] : List Series) ≠ []
    ∧ calc_node_stats [⟨"a", [("t", 0)]⟩] = .error .zeroTotal :=
  ⟨by simp,
   c3_zero_total_amended [⟨"a", [("t", 0)]⟩] (by simp) (by simp) (by simp)⟩

/-! ## Claim C7 -/

/-- C7: on every input in which some series has an empty values list,
`calc_node_stats` fails with the `EmptySeries` error from
`statistics.mean` (in the rational model no value — in particular no `NaN`
mean or ratio — is produced for any user-agent). -/
theorem c7_empty_series (data : List Series) (h : ∃ s ∈ data, s.values = []) :
    calc_node_stats data = .error .emptySeries := by
  have hm : calcMeans data = .error .emptySeries := by
    induction data with
    | nil => simp at h
    | cons s rest ih =>
        rcases h with ⟨x, hx, hxe⟩
        rcases List.mem_cons.mp hx with h1 | h1
        · have hse : s.values = [] := by rw [← h1]; exact hxe
          simp only [calcMeans]
          rw [hse]
          simp [pymean]
        · cases hv : s.values with
          | nil =>
              simp only [calcMeans]
              rw [hv]
              simp [pymean]
          | cons a t =>
              have hrest := ih ⟨x, h1, hxe⟩
              simp only [calcMeans]
              rw [hv]
              simp [pymean, hrest]
  unfold calc_node_stats
  rw [hm]

/-- Witness for C7 on a one-series input with an empty values list. -/
theorem c7_witness :
    (∃ s ∈ ([⟨"a", []⟩] : List Series), s.values = [])
    ∧ calc_node_stats [⟨"a", []⟩] = .error .emptySeries :=
  ⟨⟨⟨"a", []⟩, by simp, rfl⟩,
   c7_empty_series [⟨"a", []⟩] ⟨⟨"a", []⟩, by simp, rfl⟩⟩

/-! ## Claim C2 -/

/-- C2 counterexample: the claim promises, for every input in which each
user-agent has a nonempty count sequence, a produced ratio per user-agent
summing to 1; but on the nonempty-values input whose counts are all zero
the aggregator fails with `ZeroTotal` and produces no ratios at all (and on
the empty input it returns zero ratios whose sum is 0, not 1). -/
theorem c2_counterexample :
    (∀ s ∈ ([⟨"a", [("t", 0)]⟩] : List Series), s.values ≠ [])
    ∧ calc_node_stats [⟨"a", [("t", 0)]⟩] = .error .zeroTotal := by
  constructor
  · simp
  · norm_num [calc_node_stats, calcMeans, calcRatios, pymean]

/-- C2 (amended): for every input in which each user-agent has a nonempty
count sequence and at least one observed count is positive,
`calc_node_stats` succeeds and produces one row per user-agent whose ratio
is its mean divided by the sum of all means; every ratio lies in `[0, 1]`
and the ratios sum to exactly 1 (hence within the claimed `1e-9` relative
tolerance). -/
theorem c2_ratios_amended (data : List Series)
    (hv : ∀ s ∈ data, s.values ≠ [])
    (hp : ∃ s ∈ data, ∃ v ∈ s.values, 0 < v.2) :
    ∃ stats total, calc_node_stats data = .ok (stats, total)
      ∧ total = (data.map seriesMean).sum
      ∧ stats.length = data.length
      ∧ (∀ st ∈ stats, st.daily_ratio = st.daily_mean / total
           ∧ 0 ≤ st.daily_ratio ∧ st.daily_ratio ≤ 1)
      ∧ (stats.map UaStat.daily_ratio).sum = 1
      ∧ |(stats.map UaStat.daily_ratio).sum - 1| ≤ 1 / 1000000000 := by
  have htpos : 0 < (data.map seriesMean).sum := by
    obtain ⟨s, hs, v, hvm, hvc⟩ := hp
    have h1 : 0 < seriesMean s := seriesMean_pos s (hv s hs) v hvm hvc
    have h2 : seriesMean s ≤ (data.map seriesMean).sum :=
      List.single_le_sum
        (fun x hx => by obtain ⟨t, ht, rfl⟩ := List.mem_map.mp hx; exact seriesMean_nonneg t) _
        (List.mem_map.mpr ⟨s, hs, rfl⟩)
    linarith
  have hne0 : (data.map seriesMean).sum ≠ 0 := ne_of_gt htpos
  have hm := calcMeans_eq data hv
  have hr := calcRatios_ok ((data.map seriesMean).sum) hne0
    (data.map (fun s => (s.tag, seriesMean s)))
  have hmaps := ratio_col_map data ((data.map seriesMean).sum)
  have hsum :
      ((((data.map (fun s => (s.tag, seriesMean s))).map
          (fun p => (⟨p.1, p.2, p.2 / (data.map seriesMean).sum⟩ : UaStat))).map
        UaStat.daily_ratio)).sum = 1 := by
    rw [hmaps, list_sum_div, div_self hne0]
  refine ⟨(data.map (fun s => (s.tag, seriesMean s))).map
      (fun p => ⟨p.1, p.2, p.2 / (data.map seriesMean).sum⟩),
    (data.map seriesMean).sum, ?_, rfl, ?_, ?_, hsum, ?_⟩
  · unfold calc_node_stats
    rw [hm]
    simp [hr]
  · simp
  · intro st hst
    obtain ⟨p, hpm, rfl⟩ := List.mem_map.mp hst
    obtain ⟨s, hsm, rfl⟩ := List.mem_map.mp hpm
    refine ⟨rfl, ?_, ?_⟩
    · exact div_nonneg (seriesMean_nonneg s) htpos.le
    · apply div_le_one_of_le₀
      · exact List.single_le_sum
          (fun x hx => by obtain ⟨t, ht, rfl⟩ := List.mem_map.mp hx; exact seriesMean_nonneg t) _
          (List.mem_map.mpr ⟨s, hsm, rfl⟩)
      · exact htpos.le
  · rw [hsum]
    norm_num

/-- Witness for C2 (amended) on a concrete two-series input with means 7
and 3. -/
theorem c2_witness :
    (∀ s ∈ ([⟨"a", [("t", 7)]⟩, ⟨"b", [("t", 3)]⟩] : List Series), s.values ≠ [])
    ∧ (∃ s ∈ ([⟨"a", [("t", 7)]⟩, ⟨"b", [("t", 3)]⟩] : List Series), ∃ v ∈ s.values, 0 < v.2)
    ∧ ∃ stats total,
        calc_node_stats [⟨"a", [("t", 7)]⟩, ⟨"b", [("t", 3)]⟩] = .ok (stats, total)
        ∧ total = (([⟨"a", [("t", 7)]⟩, ⟨"b", [("t", 3)]⟩] : List Series).map seriesMean).sum
        ∧ stats.length = ([⟨"a", [("t", 7)]⟩, ⟨"b", [("t", 3)]⟩] : List Series).length
        ∧ (∀ st ∈ stats, st.daily_ratio = st.daily_mean / total
             ∧ 0 ≤ st.daily_ratio ∧ st.daily_ratio ≤ 1)
        ∧ (stats.map UaStat.daily_ratio).sum = 1
        ∧ |(stats.map UaStat.daily_ratio).sum - 1| ≤ 1 / 1000000000 :=
  ⟨by simp, ⟨⟨"a", [("t", 7)]⟩, by simp, ("t", 7), by simp, by norm_num⟩,
   c2_ratios_amended [⟨"a", [("t", 7)]⟩, ⟨"b", [("t", 3)]⟩] (by simp)
     ⟨⟨"a", [("t", 7)]⟩, by simp, ("t", 7), by simp, by norm_num⟩⟩

/-! ## Claim C10 -/

/-- The grouping loop skips a user-agent whose lookup yields the
empty-string group name exactly as it skips one missing from the lookup:
the fold step leaves the accumulator unchanged, so the grouped stats are
those of the list without that row. -/
theorem group_uas_skip (inv : List (String × String)) (l1 l2 : List UaStat) (u : UaStat)
    (h : inv.lookup u.ua = some "" ∨ inv.lookup u.ua = none) :
    group_uas inv (l1 ++ u :: l2) = group_uas inv (l1 ++ l2) := by
  unfold group_uas
  rw [List.foldl_append, List.foldl_append, List.foldl_cons]
  rcases h with h | h <;> simp [h]

/-- C10: a user-agent mapped to the empty-string group name `""` by the
inverted lookup is treated exactly like an untracked user-agent (one with
no entry at all): the whole group aggregation — group stats, sort, tracked
and untracked ratios — is the same as if that row were absent, because
membership is decided by the truthiness test `if gname:` rather than key
presence. -/
theorem c10_empty_group_name_untracked (inv : List (String × String)) (total : ℚ)
    (l1 l2 : List UaStat) (u : UaStat)
    (h : inv.lookup u.ua = some "" ∨ inv.lookup u.ua = none) :
    calc_groups_core inv (l1 ++ u :: l2) total = calc_groups_core inv (l1 ++ l2) total := by
  unfold calc_groups_core
  rw [group_uas_skip inv l1 l2 u h]

/-- Witness for C10: with the lookup sending "x" to the group name `""`,
dropping the "x" row does not change the computed stats. -/
theorem c10_witness :
    ((([("x", "")] : List (String × String)).lookup "x" = some "")
      ∨ (([("x", "")] : List (String × String)).lookup "x" = none))
    ∧ calc_groups_core [("x", "")] [⟨"x", 1, 1/4⟩, ⟨"y", 2, 1/2⟩] 4
        = calc_groups_core [("x", "")] [⟨"y", 2, 1/2⟩] 4 :=
  ⟨.inl rfl,
   c10_empty_group_name_untracked [("x", "")] 4 [] [⟨"y", 2, 1/2⟩] ⟨"x", 1, 1/4⟩ (.inl rfl)⟩

/-! ## Claim C8 -/

theorem str_join_cons (s : String) (l : List String) :
    String.join (s :: l) = s ++ String.join l := by
  simp [String.join_eq]
  rfl

/-- Outcome of one conditional accumulator update. -/
theorem stepAcc_ok (marker acc : String) (gs : GroupStats) (d2 : String)
    (h : stepAcc marker acc gs = .ok d2) :
    (strContains gs.name marker = true
      ∧ ∃ p, fmt_percent gs.avg_nodes_ratio = .ok p ∧ d2 = acc ++ p ++ " " ++ gs.name ++ ", ")
    ∨ (strContains gs.name marker = false ∧ d2 = acc) := by
  unfold stepAcc at h
  by_cases hm : strContains gs.name marker = true
  · rw [if_pos hm] at h
    unfold appendEntry at h
    cases hp : fmt_percent gs.avg_nodes_ratio with
    | error e =>
        rw [hp] at h
        simp at h
    | ok p =>
        rw [hp] at h
        have h2 : acc ++ p ++ " " ++ gs.name ++ ", " = d2 := by simpa using h
        exact .inl ⟨hm, p, rfl, h2.symm⟩
  · rw [if_neg hm] at h
    have h2 : acc = d2 := by simpa using h
    exact .inr ⟨Bool.not_eq_true _ ▸ Bool.of_not_eq_true hm, h2.symm⟩

/-- Structure of a successful run of the formatter loop: the two
accumulators come out as the initial accumulators followed by the joined
entries of, respectively, the "dcrd"-named and "dcrwallet"-named groups, in
list order. -/
theorem print_go_spec (gss : List GroupStats) :
    ∀ (d w : String) (res : String × String), print_go gss d w = .ok res →
      ∃ dp wp, fmt_entries (gss.filter (fun gs => strContains gs.name "dcrd")) = .ok dp
        ∧ fmt_entries (gss.filter (fun gs => strContains gs.name "dcrwallet")) = .ok wp
        ∧ res = (d ++ String.join dp, w ++ String.join wp) := by
  induction gss with
  | nil =>
      intro d w res h
      have h2 : (d, w) = res := by simpa [print_go] using h
      refine ⟨[], [], rfl, rfl, ?_⟩
      rw [← h2]
      simp [show String.join [] = "" from rfl]
  | cons gs rest ih =>
      intro d w res h
      simp only [print_go] at h
      cases hd : stepAcc "dcrd" d gs with
      | error e =>
          rw [hd] at h
          simp at h
      | ok d2 =>
          rw [hd] at h
          cases hw : stepAcc "dcrwallet" w gs with
          | error e =>
              rw [hw] at h
              simp at h
          | ok w2 =>
              rw [hw] at h
              have h2 : print_go rest d2 w2 = .ok res := h
              obtain ⟨dp, wp, hdp, hwp, hres⟩ := ih d2 w2 res h2
              rcases stepAcc_ok "dcrd" d gs d2 hd with ⟨hmd, p, hp, hd2⟩ | ⟨hmd, hd2⟩ <;>
                rcases stepAcc_ok "dcrwallet" w gs w2 hw with ⟨hmw, q, hq, hw2⟩ | ⟨hmw, hw2⟩
              · refine ⟨(p ++ " " ++ gs.name ++ ", ") :: dp, (q ++ " " ++ gs.name ++ ", ") :: wp,
                  ?_, ?_, ?_⟩
                · simp [List.filter_cons, hmd, fmt_entries, fmt_entry, hp, hdp]
                · simp [List.filter_cons, hmw, fmt_entries, fmt_entry, hq, hwp]
                · rw [hres, hd2, hw2, str_join_cons, str_join_cons]
                  simp [String.append_assoc]
              · refine ⟨(p ++ " " ++ gs.name ++ ", ") :: dp, wp, ?_, ?_, ?_⟩
                · simp [List.filter_cons, hmd, fmt_entries, fmt_entry, hp, hdp]
                · simp only [List.filter_cons, hmw]
                  simp only [Bool.false_eq_true, if_false]
                  exact hwp
                · rw [hres, hd2, hw2, str_join_cons]
                  simp [String.append_assoc]
              · refine ⟨dp, (q ++ " " ++ gs.name ++ ", ") :: wp, ?_, ?_, ?_⟩
                · simp only [List.filter_cons, hmd]
                  simp only [Bool.false_eq_true, if_false]
                  exact hdp
                · simp [List.filter_cons, hmw, fmt_entries, fmt_entry, hq, hwp]
                · rw [hres, hd2, hw2, str_join_cons]
                  simp [String.append_assoc]
              · refine ⟨dp, wp, ?_, ?_, ?_⟩
                · simp only [List.filter_cons, hmd]
                  simp only [Bool.false_eq_true, if_false]
                  exact hdp
                · simp only [List.filter_cons, hmw]
                  simp only [Bool.false_eq_true, if_false]
                  exact hwp
                · rw [hres, hd2, hw2]

/-- C8 counterexample: the claim quantifies over every `ReportStats` value,
but on the reachable stats with a single fully-tracked group (group ratio
exactly 1, `untracked_ratio` exactly 0 — what `calc_node_group_stats`
produces when every user-agent is tracked in one group) the formatter
renders no line at all: `fmt_percent(0)` calls `concise_round(0)`, whose
tolerance check divides by zero. -/
theorem c8_counterexample :
    print_node_stats ⟨[⟨"dcrd v1.5", 10, 1, []⟩], 0⟩ "May" = .error .divByZero := by
  norm_num [print_node_stats, print_go, stepAcc, appendEntry, fmt_percent, concise_round,
    concise_round_loop, py_round, round_half_even, ratTrunc, ratStr, strContains,
    containsL, startsWithL, abs_of_nonneg, abs_of_nonpos, abs_sub_comm]
  decide

/-- C8 (amended): `print_node_stats` does not render a line for every
`ReportStats` value — it raises `ZeroDivisionError` when `untracked_ratio`
or a displayed group ratio is exactly 0 (see `c8_counterexample`) — but
every line it does successfully render has exactly the shape the
specification describes: the header
`"Average version distribution for <month>: "`, then every group whose
name contains `"dcrd"` (in the overall sorted order, as `"<pct>% <name>, "`),
then every group whose name contains `"dcrwallet"`, then
`"<pct>% others."` for the untracked ratio, with no trailing comma before
"others" — i.e. the imperative accumulator loop refines
`print_node_stats_spec`. -/
theorem c8_print_node_stats (stats : Stats) (monthName : String) (out : String)
    (h : print_node_stats stats monthName = .ok out) :
    print_node_stats_spec stats monthName = .ok out := by
  unfold print_node_stats at h
  cases hgo : print_go stats.group_stats "" "" with
  | error e =>
      rw [hgo] at h
      simp at h
  | ok dw =>
      rw [hgo] at h
      obtain ⟨d, w⟩ := dw
      cases hu : fmt_percent stats.untracked_ratio with
      | error e =>
          rw [hu] at h
          simp at h
      | ok u =>
          rw [hu] at h
          have hout : "Average version distribution for " ++ monthName ++ ": "
              ++ d ++ w ++ u ++ " others." = out := by simpa using h
          obtain ⟨dp, wp, hdp, hwp, hres⟩ := print_go_spec stats.group_stats "" "" (d, w) hgo
          have hd : d = String.join dp := by
            have := congrArg Prod.fst hres
            simpa using this
          have hw : w = String.join wp := by
            have := congrArg Prod.snd hres
            simpa using this
          unfold print_node_stats_spec
          rw [hdp, hwp, hu, ← hout, hd, hw]

/-- Witness for C8 on a concrete one-group stats value. -/
theorem c8_witness :
    print_node_stats ⟨[⟨"dcrd v1.5", 7, 7/10, []⟩], 3/10⟩ "May"
      = .ok "Average version distribution for May: 70% dcrd v1.5, 30% others."
    ∧ print_node_stats_spec ⟨[⟨"dcrd v1.5", 7, 7/10, []⟩], 3/10⟩ "May"
      = .ok "Average version distribution for May: 70% dcrd v1.5, 30% others." := by
  have h1 : print_node_stats ⟨[⟨"dcrd v1.5", 7, 7/10, []⟩], 3/10⟩ "May"
      = .ok "Average version distribution for May: 70% dcrd v1.5, 30% others." := by
    norm_num [print_node_stats, print_go, stepAcc, appendEntry, fmt_percent, concise_round,
      concise_round_loop, py_round, round_half_even, ratTrunc, ratStr, strContains,
      containsL, startsWithL, abs_of_nonneg, abs_of_nonpos, abs_sub_comm]
    decide
  exact ⟨h1, c8_print_node_stats _ "May" _ h1⟩

end NetworkStats
